import Mathlib

/-!
Verification of the layered-map core (`experimental/storage/layered-map`):
a shallow embedding of `map/new_layer_impl.rs` and `flatten_perfect_tree.rs`,
together with the parts of the data model (`node.rs`, `MapLayer`) that those
files reference.

Conventions:
* Machine integers (`u64` key hashes, layer numbers) are `Nat`; key hashes are
  reduced `% 2^64` where they are created.
* Rust panics (`panic!`, `assert!`, `unreachable!`, `todo!`, `Option::unwrap`)
  are modelled by `Except BuildErr`, with one error constructor per panic site.
* `Arc`-based weak/strong references carry no observable content in a pure
  model: `weak_ref` / `get_strong` are identities on `Node`.
-/

namespace LMap

variable {K V : Type} [LinearOrder K]

/-- One error constructor per panic site of the source; a returned error means
the corresponding Rust code panics at that site. -/
inductive BuildErr : Type where
  /-- the literal `todo!()` body of `FptRef::expect_sub_trees` -/
  | todo
  /-- `panic!("Still in Peak")` in `PositionInfo::expect_peak_foot_or_below` -/
  | stillInPeak
  /-- `unreachable!("Trying to put node above peak feet.")` in `seal_with_node` -/
  | sealAboveFeet
  /-- `unreachable!("Children should be of same flavor.")` in `seal_with_children` -/
  | flavorMismatch
  /-- `unreachable!("merge_up with two empty nodes")` in `merge_up` -/
  | mergeUpTwoEmpty
  /-- an `assert!` failure (`to_leaf_content`, `all_items_same_key_hash`,
  `expect_single_node`, `expect_into_single_node_ref`, `finalize`,
  `seal_with_children`) -/
  | assertViolation
  /-- `Option::unwrap` on `None` (`position_in_new_peak.unwrap()` in `branch`) -/
  | unwrapNone
  /-- recursion fuel exhausted; the Rust recursion has no such case, so theorems
  must not depend on hitting it -/
  | outOfFuel
deriving DecidableEq, Repr

/-- Per-key payload cell of a collision leaf (`CollisionCell { value, layer }`). -/
structure CollisionCell (V : Type) : Type where
  value : V
  layer : Nat
deriving DecidableEq, Repr

/-- Leaf payload (`LeafContent`): a unique latest key/value, or an ordered
collision map keyed by the original key.  The `BTreeMap<K, CollisionCell>` is
modelled as an association list kept strictly sorted by key. -/
inductive LeafContent (K V : Type) : Type where
  | uniqueLatest (key : K) (value : V)
  | collision (map : List (K × CollisionCell V))
deriving DecidableEq, Repr

/-- Trie node.  `NodeRef` and `NodeStrongRef` (weak vs owning handles to the
same immutable nodes) both collapse to this type in a pure model; the
`Empty / Leaf / Internal` variants are kept exactly. -/
inductive Node (K V : Type) : Type where
  | empty
  | leaf (key_hash : Nat) (content : LeafContent K V) (layer : Nat)
  | internal (left : Node K V) (right : Node K V) (layer : Nat)
deriving DecidableEq, Repr

/-- `NodeRef::weak_ref` / downgrading: identity in the pure model. -/
def Node.weak_ref (n : Node K V) : Node K V := n

/-- `NodeRef::get_strong(base_layer)`: resolving a weak handle to an owning one
at or above the floor; identity in the pure model (reachable nodes are live). -/
def Node.get_strong (n : Node K V) (base_layer : Nat) : Node K V :=
  let _ := base_layer
  n

/-- `NodeRef::new_leaf(key_hash, content, layer)`. -/
def Node.new_leaf (key_hash : Nat) (content : LeafContent K V) (layer : Nat) :
    Node K V :=
  Node.leaf key_hash content layer

/-- `NodeRef::new_internal(left, right, layer)`. -/
def Node.new_internal (left right : Node K V) (layer : Nat) : Node K V :=
  Node.internal left right layer

/-- Modelled from the spec: `NodeStrongRef::children(depth, base_layer)`
(`node.rs` is not among the provided sources).  Spec 4.3 step 5 requires
branching one more level past an `Empty`, a hash-mismatched `Leaf`, or an
`Internal` subtree, so an `Empty` splits into two empties, a `Leaf` is pushed
down the side selected by its own hash bit at `depth`, and an `Internal` yields
its two children resolved at the floor. -/
def Node.children (n : Node K V) (depth : Nat) (base_layer : Nat) :
    Node K V × Node K V :=
  match n with
  | Node.empty => (Node.empty, Node.empty)
  | Node.leaf kh c l =>
    if Nat.testBit kh (63 - depth) then (Node.empty, Node.leaf kh c l)
    else (Node.leaf kh c l, Node.empty)
  | Node.internal left right _ =>
    (left.get_strong base_layer, right.get_strong base_layer)

/-! ### `flatten_perfect_tree.rs` -/

/-- `FlattenPerfectTree { leaves, height }`: dense array of the top trie
levels. -/
structure FlattenPerfectTree (K V : Type) : Type where
  leaves : List (Node K V)
  height : Nat
deriving DecidableEq, Repr

/-- `FlattenPerfectTree::new_empty(height)`: `2^(height-1)` Empty slots when
`height > 0`, none otherwise. -/
def FlattenPerfectTree.new_empty (height : Nat) : FlattenPerfectTree K V :=
  let num_leaves := if height = 0 then 0 else 2 ^ (height - 1)
  { leaves := List.replicate num_leaves Node.empty, height := height }

/-- `FlattenPerfectTree::root()`: the read-only view over the full slice.
An `FptRef` is just its slice of slots. -/
def FlattenPerfectTree.root (t : FlattenPerfectTree K V) : List (Node K V) :=
  t.leaves

/-- `FptRef::is_single_node()`. -/
def FptRef.is_single_node (leaves : List (Node K V)) : Bool :=
  leaves.length = 1

/-- `FptRef::expect_sub_trees()`: the source body is literally `todo!()`, which
panics unconditionally, so the model returns an error on every input. -/
def FptRef.expect_sub_trees (leaves : List (Node K V)) :
    Except BuildErr (List (Node K V) × List (Node K V)) :=
  let _ := leaves
  Except.error BuildErr.todo

/-- `FptRef::expect_single_node(base_layer)`: asserts the view is a single
slot, then resolves it. -/
def FptRef.expect_single_node (leaves : List (Node K V)) (base_layer : Nat) :
    Except BuildErr (Node K V) :=
  match leaves with
  | [n] => Except.ok (n.get_strong base_layer)
  | _ => Except.error BuildErr.assertViolation

/-- `FptRefMut::try_into_sub_trees()`: a single-slot view yields no sub-views;
otherwise the slice is split at `len / 2`.  A mutable view is modelled by the
current contents of its slice. -/
def FptRefMut.try_into_sub_trees (leaves : List (Node K V)) :
    Option (List (Node K V)) × Option (List (Node K V)) :=
  if leaves.length = 1 then (none, none)
  else
    (some (leaves.take (leaves.length / 2)),
     some (leaves.drop (leaves.length / 2)))

/-- `FptRefMut::is_single_node()`. -/
def FptRefMut.is_single_node (leaves : List (Node K V)) : Bool :=
  leaves.length = 1

/-! ### Items and the canonical sort (`new_layer_with_hasher`, steps 1-2) -/

/-- Modelled from the spec: `KeyHash` is a fixed-width (64-bit) hash whose bit
`d` selects the branch at trie depth `d`, with ascending numeric order placing
0-bit entries before 1-bit entries at every depth (spec 3 and 4.3 step 5), so
bit `d` is the `(63 - d)`-th binary digit.  Mirrors `KeyHash::bit` (not among
the provided sources). -/
def KeyHash.bit (kh : Nat) (depth : Nat) : Bool :=
  Nat.testBit kh (63 - depth)

/-- The hash actually stored for a key: `KeyHash(hash_builder.hash_one(key))`,
a `u64`, hence the hasher's output reduced `% 2^64`. -/
def keyHashOf (h : K → Nat) (k : K) : Nat :=
  h k % 2 ^ 64

/-- `Item { key_hash, kv }`: a batch entry together with its key hash. -/
structure Item (K V : Type) : Type where
  key_hash : Nat
  key : K
  value : V
deriving DecidableEq, Repr

/-- `Item::full_key()`: the (key hash, key) pair used for sorting and
deduplication. -/
def Item.full_key (it : Item K V) : Nat × K :=
  (it.key_hash, it.key)

/-- Lexicographic comparison of full keys, i.e. Rust's derived `Ord` on the
tuple `(KeyHash, &K)`. -/
def fullKeyLe (a b : Item K V) : Prop :=
  a.key_hash < b.key_hash ∨ (a.key_hash = b.key_hash ∧ a.key ≤ b.key)

instance : DecidableRel (fullKeyLe (K := K) (V := V)) := fun a b => by
  unfold fullKeyLe; infer_instance

instance : IsTotal (Item K V) fullKeyLe where
  total a b := by
    unfold fullKeyLe
    rcases lt_trichotomy a.key_hash b.key_hash with h | h | h
    · exact Or.inl (Or.inl h)
    · rcases le_total a.key b.key with hk | hk
      · exact Or.inl (Or.inr ⟨h, hk⟩)
      · exact Or.inr (Or.inr ⟨h.symm, hk⟩)
    · exact Or.inr (Or.inl h)

instance : IsTrans (Item K V) fullKeyLe where
  trans a b c hab hbc := by
    unfold fullKeyLe at *
    rcases hab with h1 | ⟨h1, h1k⟩ <;> rcases hbc with h2 | ⟨h2, h2k⟩
    · exact Or.inl (h1.trans h2)
    · exact Or.inl (h2 ▸ h1)
    · exact Or.inl (h1 ▸ h2)
    · exact Or.inr ⟨h1.trans h2, le_trans h1k h2k⟩

/-- The hashing step of `new_layer_with_hasher`: each `(key, value)` pair
becomes an `Item` carrying `KeyHash(hash_builder.hash_one(key))`. -/
def mkItems (h : K → Nat) (kvs : List (K × V)) : List (Item K V) :=
  kvs.map fun kv => { key_hash := keyHashOf h kv.1, key := kv.1, value := kv.2 }

/-- The canonical sort of `new_layer_with_hasher`:
`sorted_by_key(Item::full_key)` is itertools' stable sort ascending by
`(KeyHash, Key)`; any stable sort for a total preorder computes the same list,
so it is modelled by insertion sort. -/
def sortItems (h : K → Nat) (kvs : List (K × V)) : List (Item K V) :=
  (mkItems h kvs).insertionSort fullKeyLe

/-- `slice::partition_point(pred)`: on a partitioned slice (every element
satisfying `pred` before every element not satisfying it) the binary search
returns the length of the satisfying prefix. -/
def partitionPoint (p : Item K V → Bool) (items : List (Item K V)) : Nat :=
  (items.takeWhile p).length

/-! ### `BTreeMap` model: association lists strictly sorted by key -/

/-- `BTreeMap::insert`-compatible insertion into a key-sorted association
list: replaces the cell when the key is present. -/
def btInsert (k : K) (c : α) : List (K × α) → List (K × α)
  | [] => [(k, c)]
  | (k', c') :: rest =>
    if k < k' then (k, c) :: (k', c') :: rest
    else if k = k' then (k, c) :: rest
    else (k', c') :: btInsert k c rest

/-- `BTreeMap::from_iter` / `collect`: fold the pairs in order, so a later
pair with the same key overwrites an earlier one. -/
def btFromList (l : List (K × α)) : List (K × α) :=
  l.foldl (fun m kc => btInsert kc.1 kc.2 m) []

/-- `BTreeMap::get`. -/
def btGet (m : List (K × α)) (k : K) : Option α :=
  (m.find? fun kc => kc.1 = k).map (fun kc => kc.2)

/-- `to_leaf_content(items, layer)`: asserts the slice non-empty; a single
item becomes `UniqueLatest`; otherwise the items are deduplicated through a
`BTreeMap` (later occurrence wins) and collapse back to `UniqueLatest` when a
single key remains. -/
def to_leaf_content (items : List (Item K V)) (layer : Nat) :
    Except BuildErr (LeafContent K V) :=
  match items with
  | [] => Except.error BuildErr.assertViolation
  | [it] => Except.ok (LeafContent.uniqueLatest it.key it.value)
  | _ =>
    let map := btFromList (items.map fun it => (it.key, CollisionCell.mk it.value layer))
    if map.length = 1 then
      match map with
      | (k, cell) :: _ => Except.ok (LeafContent.uniqueLatest k cell.value)
      | [] => Except.error BuildErr.assertViolation
    else
      Except.ok (LeafContent.collision map)

/-- The per-key association a leaf payload represents (spec 3: a unique
key/value, or a collision set keyed by the original key). -/
def LeafContent.valueOf (c : LeafContent K V) (k : K) : Option V :=
  match c with
  | LeafContent.uniqueLatest key value => if key = k then some value else none
  | LeafContent.collision m => (btGet m k).map (fun cell => cell.value)

/-- Modelled from the spec: `LeafContent::combined_with(old_layer, new,
new_layer, base_layer)` (`node.rs` is not among the provided sources).
Spec 4.2: old entries (tagged `old_layer` unless already tagged in a
collision) are unioned with new entries (tagged `new_layer`), the new entry
winning for keys present in both; the result collapses to `UniqueLatest` when
exactly one key remains.  Pruning of superseded entries below `base_layer` is
an optional memory optimization with no read-visible effect (spec 9), so the
conservative model retains everything not superseded. -/
def LeafContent.combined_with (old : LeafContent K V) (old_layer : Nat)
    (new : LeafContent K V) (new_layer : Nat) (base_layer : Nat) :
    LeafContent K V :=
  let _ := base_layer
  let entries := fun (c : LeafContent K V) (layer : Nat) =>
    match c with
    | LeafContent.uniqueLatest key value => [(key, CollisionCell.mk value layer)]
    | LeafContent.collision m => m
  let merged := btFromList (entries old old_layer ++ entries new new_layer)
  match merged with
  | [(k, cell)] => LeafContent.uniqueLatest k cell.value
  | _ => LeafContent.collision merged

/-! ### The layered map state and `MapLayer` -/

/-- The fields of `LayeredMap`/`MapLayer` the build reads: the previous top
layer's peak, its layer number (`top_layer()`), and the configured floor
(`base_layer()`).  Modelled from the spec for the accessors (`map/mod.rs` is
not among the provided sources): spec 3 gives `MapLayer = {peak, layer,
base_layer, next}`. -/
structure LayeredMapState (K V : Type) : Type where
  peak : FlattenPerfectTree K V
  top_layer : Nat
  base_layer : Nat
deriving DecidableEq, Repr

/-- The produced layer: the now-filled new peak plus the bookkeeping of
`MapLayer::spawn(new_peak, base_layer)`.  Modelled from the spec (spec 4.3
step 7): `layer = previous.layer + 1`, `base_layer` copied from the
configuration, continuation link to the previous layer's trie. -/
structure MapLayerModel (K V : Type) : Type where
  peak_slots : List (Node K V)
  layer : Nat
  base_layer : Nat
deriving DecidableEq, Repr

/-- The fixed configured peak height: `new_layer_with_hasher` allocates
`FlattenPerfectTree::new_empty(10)` for every batch. -/
def new_peak_height : Nat := 10

/-- Modelled from the spec: the initial (empty-map) `MapLayer`, whose
construction is not among the provided sources.  Its peak has the fixed
configured height shared by every layer (spec 3 invariant 3, 4.3 step 3; the
build hardcodes `new_empty(10)`), all slots Empty, layer number 0. -/
def initialState : LayeredMapState K V :=
  { peak := FlattenPerfectTree.new_empty new_peak_height, top_layer := 0,
    base_layer := 0 }

/-! ### `SubTreeBuilder` and its helper state machines -/

/-- `PositionInfo`: still above the old peak's feet (holding a peak sub-view),
or resolved to a strong node at/below the peak foot. -/
inductive PositionInfo (K V : Type) : Type where
  | abovePeakFeet (fpt : List (Node K V))
  | peakFootOrBelow (node : Node K V)
deriving DecidableEq, Repr

/-- `PositionInfo::is_in_peak()`. -/
def PositionInfo.is_in_peak (p : PositionInfo K V) : Bool :=
  match p with
  | PositionInfo.abovePeakFeet _ => true
  | PositionInfo.peakFootOrBelow _ => false

/-- `PositionInfo::expect_peak_foot_or_below()`: panics with "Still in Peak"
on the above-feet variant. -/
def PositionInfo.expect_peak_foot_or_below (p : PositionInfo K V) :
    Except BuildErr (Node K V) :=
  match p with
  | PositionInfo.abovePeakFeet _ => Except.error BuildErr.stillInPeak
  | PositionInfo.peakFootOrBelow node => Except.ok node

/-- `PositionInfo::children(depth, base_layer)`: above the feet, split the
peak view (via `FptRef::expect_sub_trees`, whose body is `todo!()`) and
resolve single-slot halves; at/below the foot, take the node's children. -/
def PositionInfo.children (p : PositionInfo K V) (depth : Nat)
    (base_layer : Nat) : Except BuildErr (PositionInfo K V × PositionInfo K V) :=
  match p with
  | PositionInfo.abovePeakFeet fpt => do
    let (left, right) ← FptRef.expect_sub_trees fpt
    if FptRef.is_single_node left then do
      let ln ← FptRef.expect_single_node left base_layer
      let rn ← FptRef.expect_single_node right base_layer
      Except.ok (PositionInfo.peakFootOrBelow ln, PositionInfo.peakFootOrBelow rn)
    else
      Except.ok (PositionInfo.abovePeakFeet left, PositionInfo.abovePeakFeet right)
  | PositionInfo.peakFootOrBelow node =>
    let (left, right) := node.children depth base_layer
    Except.ok (PositionInfo.peakFootOrBelow left, PositionInfo.peakFootOrBelow right)

/-- `PendingBuild`: where the node built at this position goes.  The
`FootOfPeak` mutable slot reference is represented positionally (the built
slot contents are returned by `build` instead of written through a
reference). -/
inductive PendingBuild : Type where
  | abovePeakFeet
  | footOfPeak
  | belowPeak
deriving DecidableEq, Repr

/-- `BuiltSubTree`: either the result was written into the new peak (the
model carries the filled slots), or an ordinary node to hand up. -/
inductive BuiltSubTree (K V : Type) : Type where
  | inOrAtFootOfPeak (slots : List (Node K V))
  | belowPeak (node : Node K V)
deriving DecidableEq, Repr

/-- `BuiltSubTree::finalize()`: asserts the build reached (into) the peak. -/
def BuiltSubTree.finalize (b : BuiltSubTree K V) :
    Except BuildErr (List (Node K V)) :=
  match b with
  | BuiltSubTree.inOrAtFootOfPeak slots => Except.ok slots
  | BuiltSubTree.belowPeak _ => Except.error BuildErr.assertViolation

/-- `SubTreeBuilder`: the recursive merge state.  The `&'a mut` new-peak view
is modelled by the current contents of its slot slice; the source moves the
view out with `Option::take` before recursing, which the pure model renders
by keeping the state immutable and reading the same field in both places. -/
structure SubTreeBuilder (K V : Type) : Type where
  map : LayeredMapState K V
  depth : Nat
  position_info : PositionInfo K V
  position_in_new_peak : Option (List (Node K V))
  items : List (Item K V)
deriving DecidableEq, Repr

/-- `MaybeEndRecursion`. -/
inductive MaybeEndRecursion (K V : Type) : Type where
  | continue_ (b : SubTreeBuilder K V)
  | end_ (node : Node K V)
deriving DecidableEq, Repr

/-- `SubTreeBuilder::init_pending_build()` (on the taken new-peak view). -/
def init_pending_build (pos : Option (List (Node K V))) : PendingBuild :=
  match pos with
  | none => PendingBuild.belowPeak
  | some fpt =>
    if FptRefMut.is_single_node fpt then PendingBuild.footOfPeak
    else PendingBuild.abovePeakFeet

/-- `SubTreeBuilder::all_items_same_key_hash()`: asserts the slice non-empty,
then compares the first and last key hashes. -/
def all_items_same_key_hash (items : List (Item K V)) :
    Except BuildErr (Option Nat) :=
  match items with
  | [] => Except.error BuildErr.assertViolation
  | it :: rest =>
    let first_key_hash := it.key_hash
    if first_key_hash = ((it :: rest).getLast (by simp)).key_hash then
      Except.ok (some first_key_hash)
    else
      Except.ok none

/-- `SubTreeBuilder::still_in_peak()`. -/
def SubTreeBuilder.still_in_peak (b : SubTreeBuilder K V) : Bool :=
  b.position_info.is_in_peak ||
    (match b.position_in_new_peak with
     | none => false
     | some fpt => !(FptRefMut.is_single_node fpt))

/-- `SubTreeBuilder::new_leaf(key_hash, items)`. -/
def SubTreeBuilder.new_leaf (b : SubTreeBuilder K V) (key_hash : Nat)
    (items : List (Item K V)) : Except BuildErr (Node K V) := do
  let new_layer := b.map.top_layer + 1
  let content ← to_leaf_content items new_layer
  Except.ok (Node.new_leaf key_hash content new_layer)

/-- `SubTreeBuilder::new_leaf_overwriting_old(key_hash, old_leaf, new_items)`. -/
def SubTreeBuilder.new_leaf_overwriting_old (b : SubTreeBuilder K V)
    (key_hash : Nat) (old_content : LeafContent K V) (old_layer : Nat)
    (new_items : List (Item K V)) : Except BuildErr (Node K V) := do
  let new_layer := b.map.top_layer + 1
  let old := old_content
  let new ← to_leaf_content new_items new_layer
  let content := old.combined_with old_layer new new_layer b.map.base_layer
  Except.ok (Node.new_leaf key_hash content new_layer)

/-- `SubTreeBuilder::maybe_end_recursion()`: still inside either peak means
keep recursing; empty items mean reuse the existing subtree by weak
reference; a single shared key hash materializes a leaf unless the existing
subtree forces another level of branching. -/
def SubTreeBuilder.maybe_end_recursion (b : SubTreeBuilder K V) :
    Except BuildErr (MaybeEndRecursion K V) :=
  if b.still_in_peak then
    Except.ok (MaybeEndRecursion.continue_ b)
  else if b.items.isEmpty then do
    let node ← b.position_info.expect_peak_foot_or_below
    Except.ok (MaybeEndRecursion.end_ node.weak_ref)
  else do
    match ← all_items_same_key_hash b.items with
    | none => Except.ok (MaybeEndRecursion.continue_ b)
    | some key_hash => do
      match ← b.position_info.expect_peak_foot_or_below with
      | Node.empty => do
        let leaf ← b.new_leaf key_hash b.items
        Except.ok (MaybeEndRecursion.end_ leaf)
      | Node.leaf leaf_kh leaf_content leaf_layer =>
        if leaf_kh = key_hash then do
          let leaf ← b.new_leaf_overwriting_old key_hash leaf_content leaf_layer b.items
          Except.ok (MaybeEndRecursion.end_ leaf)
        else
          Except.ok (MaybeEndRecursion.continue_ b)
      | Node.internal _ _ _ => Except.ok (MaybeEndRecursion.continue_ b)

/-- `SubTreeBuilder::branch()`: split the old position, the new-peak view and
the item slice at the current depth's hash bit. -/
def SubTreeBuilder.branch (b : SubTreeBuilder K V) :
    Except BuildErr (SubTreeBuilder K V × SubTreeBuilder K V) := do
  let (left, right) ← b.position_info.children b.depth b.map.base_layer
  let (out_left, out_right) ←
    match b.position_in_new_peak with
    | none => Except.error BuildErr.unwrapNone
    | some fpt => Except.ok (FptRefMut.try_into_sub_trees fpt)
  let pivot := partitionPoint (fun it => !(KeyHash.bit it.key_hash b.depth)) b.items
  let items_left := b.items.take pivot
  let items_right := b.items.drop pivot
  Except.ok
    ({ map := b.map, depth := b.depth + 1, position_info := left,
       position_in_new_peak := out_left, items := items_left },
     { map := b.map, depth := b.depth + 1, position_info := right,
       position_in_new_peak := out_right, items := items_right })

/-- `PendingBuild::make_parent(left, right, layer)` with the collapse rules. -/
def make_parent (left right : Node K V) (layer : Nat) : Node K V :=
  match left, right with
  | Node.empty, Node.leaf kh c l => Node.leaf kh c l
  | Node.leaf kh c l, Node.empty => Node.leaf kh c l
  | Node.empty, Node.empty => Node.empty
  | left, right => Node.new_internal left right layer

/-- `PendingBuild::seal_with_node(node)`. -/
def seal_with_node (pending : PendingBuild) (node : Node K V) :
    Except BuildErr (BuiltSubTree K V) :=
  match pending with
  | PendingBuild.abovePeakFeet => Except.error BuildErr.sealAboveFeet
  | PendingBuild.footOfPeak => Except.ok (BuiltSubTree.inOrAtFootOfPeak [node])
  | PendingBuild.belowPeak => Except.ok (BuiltSubTree.belowPeak node)

/-- `PendingBuild::seal_with_children(left, right, layer)`. -/
def seal_with_children (pending : PendingBuild) (left right : BuiltSubTree K V)
    (layer : Nat) : Except BuildErr (BuiltSubTree K V) :=
  match left, right with
  | BuiltSubTree.inOrAtFootOfPeak ls, BuiltSubTree.inOrAtFootOfPeak rs =>
    if pending = PendingBuild.abovePeakFeet then
      Except.ok (BuiltSubTree.inOrAtFootOfPeak (ls ++ rs))
    else
      Except.error BuildErr.assertViolation
  | BuiltSubTree.belowPeak ln, BuiltSubTree.belowPeak rn =>
    seal_with_node pending (make_parent ln rn layer)
  | _, _ => Except.error BuildErr.flavorMismatch

/-- `SubTreeBuilder::build()`: the recursive merge.  The Rust recursion is
structurally terminating; the model carries fuel, and no theorem depends on
exhausting it. -/
def SubTreeBuilder.build (fuel : Nat) (b : SubTreeBuilder K V) :
    Except BuildErr (BuiltSubTree K V) :=
  match fuel with
  | 0 => Except.error BuildErr.outOfFuel
  | fuel + 1 => do
    let pending := init_pending_build b.position_in_new_peak
    match ← b.maybe_end_recursion with
    | MaybeEndRecursion.continue_ myself => do
      let layer := myself.map.top_layer + 1
      let (left, right) ← myself.branch
      let lb ← SubTreeBuilder.build fuel left
      let rb ← SubTreeBuilder.build fuel right
      seal_with_children pending lb rb layer
    | MaybeEndRecursion.end_ node => seal_with_node pending node

/-- Ample fuel for a 64-bit key space under a height-10 peak. -/
def buildFuel : Nat := 200

/-- `LayeredMap::new_layer_with_hasher(kvs, hash_builder)`: hash and stably
sort the batch by full key, allocate a fresh `new_empty(10)` peak, run the
builder from the old peak's root view, finalize, and spawn the new layer. -/
def new_layer_with_hasher (st : LayeredMapState K V) (h : K → Nat)
    (kvs : List (K × V)) : Except BuildErr (MapLayerModel K V) := do
  let items := sortItems h kvs
  let new_peak : FlattenPerfectTree K V :=
    FlattenPerfectTree.new_empty new_peak_height
  let builder : SubTreeBuilder K V :=
    { map := st, depth := 0,
      position_info := PositionInfo.abovePeakFeet st.peak.root,
      position_in_new_peak := some new_peak.root, items := items }
  let built ← SubTreeBuilder.build buildFuel builder
  let slots ← built.finalize
  Except.ok { peak_slots := slots, layer := st.top_layer + 1,
              base_layer := st.base_layer }

/-! ### `merge_up` / `create_tree` (the sub-peak merge recursion) -/

/-- `LayeredMap::merge_up(left, right)`: collapse rules with the two-empty
case declared unreachable. -/
def merge_up (st : LayeredMapState K V) (left right : Node K V) :
    Except BuildErr (Node K V) :=
  match left, right with
  | Node.empty, Node.leaf kh c l => Except.ok (Node.leaf kh c l)
  | Node.leaf kh c l, Node.empty => Except.ok (Node.leaf kh c l)
  | Node.empty, Node.empty => Except.error BuildErr.mergeUpTwoEmpty
  | left, right => Except.ok (Node.new_internal left right (st.top_layer + 1))

/-- `create_tree`'s leaf helpers, shared with `SubTreeBuilder` semantics:
`new_leaf` tags the content and node with `top_layer() + 1`. -/
def create_new_leaf (st : LayeredMapState K V) (key_hash : Nat)
    (items : List (Item K V)) : Except BuildErr (Node K V) := do
  let new_layer := st.top_layer + 1
  let content ← to_leaf_content items new_layer
  Except.ok (Node.new_leaf key_hash content new_layer)

/-- `new_leaf_overwriting_old` in the `create_tree` recursion. -/
def create_new_leaf_overwriting_old (st : LayeredMapState K V) (key_hash : Nat)
    (old_content : LeafContent K V) (old_layer : Nat)
    (new_items : List (Item K V)) : Except BuildErr (Node K V) := do
  let new_layer := st.top_layer + 1
  let new ← to_leaf_content new_items new_layer
  let content := old_content.combined_with old_layer new new_layer st.base_layer
  Except.ok (Node.new_leaf key_hash content new_layer)

/-- `LayeredMap::create_tree(depth, current_root, items)`: empty items reuse
the current root by weak reference; a single shared key hash materializes a
leaf against an Empty or same-hash Leaf root; otherwise partition at the
depth's hash bit, branch down (`branch_down` resolves the root's children)
and merge the two recursive results.  Fuel stands in for the structural
termination of the Rust recursion. -/
def create_tree (fuel : Nat) (st : LayeredMapState K V) (depth : Nat)
    (current_root : Node K V) (items : List (Item K V)) :
    Except BuildErr (Node K V) :=
  match fuel with
  | 0 => Except.error BuildErr.outOfFuel
  | fuel + 1 =>
    match items with
    | [] => Except.ok current_root.weak_ref
    | it :: rest =>
      let branch_rest : Except BuildErr (Node K V) := do
        let pivot :=
          partitionPoint (fun item => !(KeyHash.bit item.key_hash depth)) (it :: rest)
        let left_items := (it :: rest).take pivot
        let right_items := (it :: rest).drop pivot
        let (left_root, right_root) := current_root.children depth st.base_layer
        let lt ← create_tree fuel st (depth + 1) left_root left_items
        let rt ← create_tree fuel st (depth + 1) right_root right_items
        merge_up st lt rt
      let first_key_hash := it.key_hash
      if first_key_hash = ((it :: rest).getLast (by simp)).key_hash then
        match current_root with
        | Node.empty => create_new_leaf st first_key_hash (it :: rest)
        | Node.leaf leaf_kh leaf_content leaf_layer =>
          if leaf_kh = first_key_hash then
            create_new_leaf_overwriting_old st first_key_hash
              leaf_content leaf_layer (it :: rest)
          else branch_rest
        | Node.internal _ _ _ => branch_rest
      else branch_rest

/-- A concrete builder position that is still inside both peaks (the root
position of a build over the empty map), used to witness the peak-preserving
recursion rule. -/
def exampleInPeakBuilder : SubTreeBuilder Nat Nat :=
  { map := initialState, depth := 0,
    position_info :=
      PositionInfo.abovePeakFeet (FlattenPerfectTree.new_empty new_peak_height).root,
    position_in_new_peak := some (FlattenPerfectTree.new_empty new_peak_height).root,
    items := [] }

/-!
## Theorems

Claim-level theorems, with the helper lemmas they share.
-/

/-- C7: `FlattenPerfectTree::new_empty(h)` allocates exactly `2^(h-1)` Empty
slots for `h ≥ 1` and no slots for `h = 0`, and the peak height used by every
build is the constant 10, independent of the batch. -/
theorem C7_peak_shape :
    (∀ h : Nat, 1 ≤ h →
      (FlattenPerfectTree.new_empty (K := K) (V := V) h).leaves
        = List.replicate (2 ^ (h - 1)) Node.empty
      ∧ (FlattenPerfectTree.new_empty (K := K) (V := V) h).leaves.length
          = 2 ^ (h - 1))
    ∧ (FlattenPerfectTree.new_empty (K := K) (V := V) 0).leaves = []
    ∧ new_peak_height = 10 := by
  refine ⟨fun h hh => ?_, rfl, rfl⟩
  have hne : h ≠ 0 := by omega
  constructor
  · simp [FlattenPerfectTree.new_empty, hne]
  · simp [FlattenPerfectTree.new_empty, hne]

/-- C7 witness: the slot-count facts evaluated at height 3 and height 0. -/
theorem C7_peak_shape_witness :
    (FlattenPerfectTree.new_empty (K := Nat) (V := Nat) 3).leaves
      = List.replicate 4 Node.empty
    ∧ (FlattenPerfectTree.new_empty (K := Nat) (V := Nat) 0).leaves = [] :=
  ⟨(C7_peak_shape.1 3 (by decide)).1, C7_peak_shape.2.1⟩

/-- C8: the body of `FptRef::expect_sub_trees` is `todo!()`, so it panics on
every input instead of splitting a multi-slot view in half;
`FptRefMut::try_into_sub_trees` does split a two-slot view into two equal
single-slot halves and yields no sub-views for a single-slot view. -/
theorem C8_expect_sub_trees_is_todo :
    (∀ leaves : List (Node K V),
        FptRef.expect_sub_trees leaves = Except.error BuildErr.todo)
    ∧ FptRefMut.try_into_sub_trees
        ((FlattenPerfectTree.new_empty (K := K) (V := V) 2).root)
        = (some [Node.empty], some [Node.empty])
    ∧ FptRefMut.try_into_sub_trees ([Node.empty] : List (Node K V))
        = (none, none) := by
  refine ⟨fun _ => rfl, ?_, ?_⟩ <;>
    simp [FlattenPerfectTree.new_empty, FlattenPerfectTree.root,
      FptRefMut.try_into_sub_trees, List.replicate]

/-- C3: `new_layer_with_hasher` never runs to completion: for every previous
layer state, hasher and batch (including the empty batch) it hits the
`todo!()` panic inside `FptRef::expect_sub_trees` while splitting the peak at
depth 0, contradicting the claim that no panic arises on legitimate data. -/
theorem C3_every_build_panics (st : LayeredMapState K V) (h : K → Nat)
    (kvs : List (K × V)) :
    new_layer_with_hasher st h kvs = Except.error BuildErr.todo := rfl

/-- C1: the sequential-batch scenario cannot even complete its first step:
building `[(a,1),(b,2)]` from the empty map panics (the `todo!()` body of
`FptRef::expect_sub_trees`), so no layer exists whose reads could be
checked. -/
theorem C1_first_build_panics :
    new_layer_with_hasher (K := Nat) (V := Nat) initialState (fun k => k)
      [(0, 1), (1, 2)] = Except.error BuildErr.todo := rfl

/-- C2: `new_layer([])` does not complete successfully on a layer of the
configured shape: the empty batch also reaches the `todo!()` panic, so no
empty-batch idempotence is observable. -/
theorem C2_empty_batch_panics :
    new_layer_with_hasher (K := Nat) (V := Nat)
      { peak := FlattenPerfectTree.new_empty new_peak_height, top_layer := 7,
        base_layer := 4 }
      (fun k => k) ([] : List (Nat × Nat)) = Except.error BuildErr.todo := rfl

/-- C4: node creation does tag every new leaf with `top_layer + 1`, but no
build ever succeeds (every build returns the `todo!()` panic), so no
`MapLayer` with an incremented layer number is ever produced. -/
theorem C4_no_successful_build :
    (∀ (b : SubTreeBuilder K V) (kh : Nat) (items : List (Item K V)),
        b.new_leaf kh items
          = (to_leaf_content items (b.map.top_layer + 1)).map
              (fun c => Node.new_leaf kh c (b.map.top_layer + 1)))
    ∧ new_layer_with_hasher (K := Nat) (V := Nat)
        { peak := FlattenPerfectTree.new_empty new_peak_height, top_layer := 3,
          base_layer := 1 }
        (fun k => k) [(5, 7)] = Except.error BuildErr.todo := by
  refine ⟨fun b kh items => ?_, rfl⟩
  cases hc : to_leaf_content items (b.map.top_layer + 1) with
  | error e =>
    simp [SubTreeBuilder.new_leaf, hc, Except.map, Bind.bind, Except.bind]
  | ok c =>
    simp [SubTreeBuilder.new_leaf, hc, Except.map, Bind.bind, Except.bind]

/-- C9: whenever the builder is still inside either peak (the old position is
above the peak feet, or the new-peak view is still multi-slot),
`maybe_end_recursion` keeps recursing — it returns `Continue` regardless of
the items slice, including an empty one. -/
theorem C9_still_in_peak_continues (b : SubTreeBuilder K V)
    (h : b.still_in_peak = true) :
    b.maybe_end_recursion = Except.ok (MaybeEndRecursion.continue_ b) := by
  unfold SubTreeBuilder.maybe_end_recursion
  simp [h]

/-- C9 witness: the root position of a build over the empty map, with an
empty items slice, is still in the peak and continues. -/
theorem C9_still_in_peak_continues_witness :
    exampleInPeakBuilder.still_in_peak = true
    ∧ exampleInPeakBuilder.maybe_end_recursion
        = Except.ok (MaybeEndRecursion.continue_ exampleInPeakBuilder) :=
  ⟨rfl, C9_still_in_peak_continues exampleInPeakBuilder rfl⟩

/-- A successful `merge_up` never yields an Empty node. -/
theorem merge_up_ok_ne_empty (st : LayeredMapState K V) (l r n : Node K V)
    (h : merge_up st l r = Except.ok n) : n ≠ Node.empty := by
  intro hn
  subst hn
  cases l <;> cases r <;> simp [merge_up, Node.new_internal] at h

/-- `merge_up` hits its `unreachable!` only when both children are Empty. -/
theorem merge_up_ne_twoEmpty (st : LayeredMapState K V) (l r : Node K V)
    (h : l ≠ Node.empty ∨ r ≠ Node.empty) :
    merge_up st l r ≠ Except.error BuildErr.mergeUpTwoEmpty := by
  cases l with
  | empty =>
    cases r with
    | empty => rcases h with h | h <;> exact absurd rfl h
    | leaf kh c lay => simp [merge_up]
    | internal a b lay => simp [merge_up, Node.new_internal]
  | leaf kh c lay => cases r <;> simp [merge_up, Node.new_internal]
  | internal a b lay => cases r <;> simp [merge_up, Node.new_internal]

/-- `to_leaf_content` can only fail with its own assertion. -/
theorem to_leaf_content_error_eq (items : List (Item K V)) (layer : Nat)
    (e : BuildErr) (h : to_leaf_content items layer = Except.error e) :
    e = BuildErr.assertViolation := by
  match items with
  | [] =>
    simp [to_leaf_content] at h
    exact h.symm
  | [it] => simp [to_leaf_content] at h
  | a :: b :: rest =>
    simp only [to_leaf_content] at h
    split at h
    · split at h
      · simp at h
      · simp at h
        exact h.symm
    · simp at h

/-- A successful `create_new_leaf` yields a Leaf node. -/
theorem create_new_leaf_ok_shape (st : LayeredMapState K V) (kh : Nat)
    (items : List (Item K V)) (n : Node K V)
    (h : create_new_leaf st kh items = Except.ok n) :
    ∃ c, n = Node.leaf kh c (st.top_layer + 1) := by
  simp only [create_new_leaf, bind, Except.bind] at h
  cases hc : to_leaf_content items (st.top_layer + 1) with
  | error e => rw [hc] at h; simp at h
  | ok c =>
    rw [hc] at h
    simp [Node.new_leaf] at h
    exact ⟨c, h.symm⟩

/-- A successful `create_new_leaf_overwriting_old` yields a Leaf node. -/
theorem create_new_leaf_overwriting_old_ok_shape (st : LayeredMapState K V)
    (kh : Nat) (oc : LeafContent K V) (ol : Nat) (items : List (Item K V))
    (n : Node K V)
    (h : create_new_leaf_overwriting_old st kh oc ol items = Except.ok n) :
    ∃ c, n = Node.leaf kh c (st.top_layer + 1) := by
  simp only [create_new_leaf_overwriting_old, bind, Except.bind] at h
  cases hc : to_leaf_content items (st.top_layer + 1) with
  | error e => rw [hc] at h; simp at h
  | ok c =>
    rw [hc] at h
    simp [Node.new_leaf] at h
    exact ⟨_, h.symm⟩

/-- `create_new_leaf` can only fail with the non-empty-slice assertion. -/
theorem create_new_leaf_error_eq (st : LayeredMapState K V) (kh : Nat)
    (items : List (Item K V)) (e : BuildErr)
    (h : create_new_leaf st kh items = Except.error e) :
    e = BuildErr.assertViolation := by
  simp only [create_new_leaf, bind, Except.bind] at h
  cases hc : to_leaf_content items (st.top_layer + 1) with
  | error e2 =>
    rw [hc] at h
    simp at h
    exact h ▸ to_leaf_content_error_eq items (st.top_layer + 1) e2 hc
  | ok c => rw [hc] at h; simp at h

/-- `create_new_leaf_overwriting_old` can only fail with the non-empty-slice
assertion. -/
theorem create_new_leaf_overwriting_old_error_eq (st : LayeredMapState K V)
    (kh : Nat) (oc : LeafContent K V) (ol : Nat) (items : List (Item K V))
    (e : BuildErr)
    (h : create_new_leaf_overwriting_old st kh oc ol items = Except.error e) :
    e = BuildErr.assertViolation := by
  simp only [create_new_leaf_overwriting_old, bind, Except.bind] at h
  cases hc : to_leaf_content items (st.top_layer + 1) with
  | error e2 =>
    rw [hc] at h
    simp at h
    exact h ▸ to_leaf_content_error_eq items (st.top_layer + 1) e2 hc
  | ok c => rw [hc] at h; simp at h

/-- A two-step bind ending in `merge_up` never succeeds with an Empty node. -/
theorem bind_merge_ok_ne_empty (st : LayeredMapState K V)
    (A B : Except BuildErr (Node K V)) (n : Node K V)
    (h : (do
            let lt ← A
            let rt ← B
            merge_up st lt rt) = Except.ok n) :
    n ≠ Node.empty := by
  cases A with
  | error e => simp [Bind.bind, Except.bind] at h
  | ok lt =>
    cases B with
    | error e => simp [Bind.bind, Except.bind] at h
    | ok rt =>
      simp only [Bind.bind, Except.bind] at h
      exact merge_up_ok_ne_empty st lt rt n h

/-- A two-step bind ending in `merge_up` avoids the two-empty `unreachable!`
provided neither sub-result is that error and one side is known non-Empty on
success. -/
theorem bind_merge_ne_twoEmpty (st : LayeredMapState K V)
    (A B : Except BuildErr (Node K V))
    (hA : A ≠ Except.error BuildErr.mergeUpTwoEmpty)
    (hB : B ≠ Except.error BuildErr.mergeUpTwoEmpty)
    (hside : (∀ lt, A = Except.ok lt → lt ≠ Node.empty)
      ∨ (∀ rt, B = Except.ok rt → rt ≠ Node.empty)) :
    (do
        let lt ← A
        let rt ← B
        merge_up st lt rt) ≠ Except.error BuildErr.mergeUpTwoEmpty := by
  cases A with
  | error e =>
    simpa [Bind.bind, Except.bind] using fun he => hA (by rw [he])
  | ok lt =>
    cases B with
    | error e =>
      simpa [Bind.bind, Except.bind] using fun he => hB (by rw [he])
    | ok rt =>
      simp only [Bind.bind, Except.bind]
      refine merge_up_ne_twoEmpty st lt rt ?_
      rcases hside with hs | hs
      · exact Or.inl (hs lt rfl)
      · exact Or.inr (hs rt rfl)

/-- With a non-empty items slice, a successful `create_tree` never returns an
Empty node. -/
theorem create_tree_ok_ne_empty (fuel : Nat) (st : LayeredMapState K V)
    (depth : Nat) (root : Node K V) (items : List (Item K V)) (n : Node K V)
    (hne : items ≠ []) (h : create_tree fuel st depth root items = Except.ok n) :
    n ≠ Node.empty := by
  match fuel with
  | 0 => simp [create_tree] at h
  | fuel + 1 =>
    match items with
    | [] => exact absurd rfl hne
    | it :: rest =>
      simp only [create_tree] at h
      split at h
      · split at h
        · rcases create_new_leaf_ok_shape _ _ _ _ h with ⟨c, rfl⟩
          simp
        · split at h
          · rcases create_new_leaf_overwriting_old_ok_shape _ _ _ _ _ _ h with ⟨c, rfl⟩
            simp
          · exact bind_merge_ok_ne_empty st _ _ n h
        · exact bind_merge_ok_ne_empty st _ _ n h
      · exact bind_merge_ok_ne_empty st _ _ n h

/-- The branching arm of `create_tree` avoids the two-empty `unreachable!`:
the item slice is non-empty, so at least one side keeps items and produces a
non-Empty subtree. -/
theorem create_tree_branch_rest_ne_twoEmpty (fuel : Nat)
    (st : LayeredMapState K V) (depth : Nat) (lroot rroot : Node K V)
    (it : Item K V) (rest : List (Item K V))
    (ih : ∀ (st2 : LayeredMapState K V) (depth2 : Nat) (root2 : Node K V)
      (items2 : List (Item K V)),
      create_tree fuel st2 depth2 root2 items2
        ≠ Except.error BuildErr.mergeUpTwoEmpty) :
    (do
        let lt ← create_tree fuel st (depth + 1) lroot
          (List.take (partitionPoint (fun item => !(KeyHash.bit item.key_hash depth)) (it :: rest)) (it :: rest))
        let rt ← create_tree fuel st (depth + 1) rroot
          (List.drop (partitionPoint (fun item => !(KeyHash.bit item.key_hash depth)) (it :: rest)) (it :: rest))
        merge_up st lt rt) ≠ Except.error BuildErr.mergeUpTwoEmpty := by
  refine bind_merge_ne_twoEmpty st _ _ (ih _ _ _ _) (ih _ _ _ _) ?_
  by_cases htake :
      List.take (partitionPoint (fun item => !(KeyHash.bit item.key_hash depth)) (it :: rest)) (it :: rest) = []
  · refine Or.inr fun rt hrt => ?_
    have hdrop :
        List.drop (partitionPoint (fun item => !(KeyHash.bit item.key_hash depth)) (it :: rest)) (it :: rest) ≠ [] := by
      intro hd
      have htd :=
        List.take_append_drop
          (partitionPoint (fun item => !(KeyHash.bit item.key_hash depth)) (it :: rest)) (it :: rest)
      rw [htake, hd] at htd
      simp at htd
    exact create_tree_ok_ne_empty fuel st (depth + 1) rroot _ rt hdrop hrt
  · refine Or.inl fun lt hlt => ?_
    exact create_tree_ok_ne_empty fuel st (depth + 1) lroot _ lt htake hlt

/-- `create_tree` never hits the two-empty `unreachable!` of `merge_up`, for
any fuel, state, depth, existing subtree and item slice. -/
theorem create_tree_ne_twoEmpty (fuel : Nat) (st : LayeredMapState K V)
    (depth : Nat) (root : Node K V) (items : List (Item K V)) :
    create_tree fuel st depth root items
      ≠ Except.error BuildErr.mergeUpTwoEmpty := by
  induction fuel generalizing st depth root items with
  | zero => simp [create_tree]
  | succ fuel ih =>
    cases items with
    | nil => simp [create_tree]
    | cons it rest =>
      simp only [create_tree]
      split
      · split
        · intro h
          exact absurd (create_new_leaf_error_eq _ _ _ _ h) (by decide)
        · split
          · intro h
            exact absurd (create_new_leaf_overwriting_old_error_eq _ _ _ _ _ _ h)
              (by decide)
          · exact create_tree_branch_rest_ne_twoEmpty fuel st depth _ _ it rest ih
        · exact create_tree_branch_rest_ne_twoEmpty fuel st depth _ _ it rest ih
      · exact create_tree_branch_rest_ne_twoEmpty fuel st depth _ _ it rest ih

/-- C10: merging two sub-build results collapses `(Empty, Leaf)` and
`(Leaf, Empty)` to the leaf instead of allocating an Internal node — in both
`make_parent` and `merge_up` — and the two-empty merge `merge_up` declares
unreachable indeed never occurs anywhere in the `create_tree` recursion. -/
theorem C10_merge_collapse :
    (∀ (kh : Nat) (c : LeafContent K V) (l lay : Nat),
        make_parent Node.empty (Node.leaf kh c l) lay = Node.leaf kh c l)
    ∧ (∀ (kh : Nat) (c : LeafContent K V) (l lay : Nat),
        make_parent (Node.leaf kh c l) Node.empty lay = Node.leaf kh c l)
    ∧ (∀ (st : LayeredMapState K V) (kh : Nat) (c : LeafContent K V) (l : Nat),
        merge_up st Node.empty (Node.leaf kh c l)
          = Except.ok (Node.leaf kh c l))
    ∧ (∀ (st : LayeredMapState K V) (kh : Nat) (c : LeafContent K V) (l : Nat),
        merge_up st (Node.leaf kh c l) Node.empty
          = Except.ok (Node.leaf kh c l))
    ∧ (∀ (fuel : Nat) (st : LayeredMapState K V) (depth : Nat)
        (root : Node K V) (items : List (Item K V)),
        create_tree fuel st depth root items
          ≠ Except.error BuildErr.mergeUpTwoEmpty) :=
  ⟨fun _ _ _ _ => rfl, fun _ _ _ _ => rfl, fun _ _ _ _ => rfl,
   fun _ _ _ _ => rfl, create_tree_ne_twoEmpty⟩

/-- C10 witness: the collapse rules and the two-empty-avoidance evaluated on
a concrete two-item batch over an empty subtree (the recursion succeeds and
returns an Internal node of two leaves, so the two-empty case is exercised
and avoided). -/
theorem C10_merge_collapse_witness :
    make_parent (K := Nat) (V := Nat) Node.empty
        (Node.leaf 3 (LeafContent.uniqueLatest 1 2) 1) 1
      = Node.leaf 3 (LeafContent.uniqueLatest 1 2) 1
    ∧ create_tree (K := Nat) (V := Nat) 70 initialState 0 Node.empty
        [{ key_hash := 0, key := 0, value := 5 },
         { key_hash := 2 ^ 63, key := 1, value := 6 }]
        ≠ Except.error BuildErr.mergeUpTwoEmpty :=
  ⟨C10_merge_collapse.1 3 (LeafContent.uniqueLatest 1 2) 1 1,
   C10_merge_collapse.2.2.2.2 70 initialState 0 Node.empty _⟩

/-- Inserting an element not selected by `p` does not change the `p`-filtered
sequence. -/
theorem filter_orderedInsert_neg {α : Type} (r : α → α → Prop) [DecidableRel r]
    (p : α → Bool) (x : α) (S : List α) (hx : p x = false) :
    (S.orderedInsert r x).filter p = S.filter p := by
  induction S with
  | nil => simp [hx]
  | cons y ys ih =>
    simp only [List.orderedInsert]
    by_cases hr : r x y
    · rw [if_pos hr]
      simp [List.filter_cons, hx]
    · rw [if_neg hr]
      simp only [List.filter_cons]
      rw [ih]

/-- Inserting a selected element that sorts no later than every selected
element of `S` places it first in the `p`-filtered sequence. -/
theorem filter_orderedInsert_pos {α : Type} (r : α → α → Prop) [DecidableRel r]
    (p : α → Bool) (x : α) (S : List α) (hx : p x = true)
    (hS : ∀ y ∈ S, p y = true → r x y) :
    (S.orderedInsert r x).filter p = x :: S.filter p := by
  induction S with
  | nil => simp [hx]
  | cons y ys ih =>
    simp only [List.orderedInsert]
    by_cases hr : r x y
    · rw [if_pos hr]
      simp [List.filter_cons, hx]
    · rw [if_neg hr]
      rcases hpy : p y with _ | _
      · simp only [List.filter_cons, hpy]
        simp only [Bool.false_eq_true, if_false]
        exact ih fun z hz hpz => hS z (List.mem_cons_of_mem y hz) hpz
      · exact absurd (hS y (List.mem_cons_self y ys) hpy) hr

/-- Stability of insertion sort on tie classes: if all `p`-selected elements
are mutually related (tied), the sort preserves their relative order, so the
`p`-filtered sequence is unchanged. -/
theorem filter_insertionSort_tied {α : Type} (r : α → α → Prop) [DecidableRel r]
    (p : α → Bool) (l : List α)
    (htied : ∀ x ∈ l, ∀ y ∈ l, p x = true → p y = true → r x y) :
    (l.insertionSort r).filter p = l.filter p := by
  induction l with
  | nil => simp
  | cons x xs ih =>
    simp only [List.insertionSort]
    have ihx := ih fun a ha b hb hpa hpb =>
      htied a (List.mem_cons_of_mem x ha) b (List.mem_cons_of_mem x hb) hpa hpb
    rcases hx : p x with _ | _
    · rw [filter_orderedInsert_neg r p x _ hx, ihx]
      simp [List.filter_cons, hx]
    · rw [filter_orderedInsert_pos r p x _ hx fun y hy hpy =>
        htied x (List.mem_cons_self x xs) y
          (List.mem_cons_of_mem x ((List.mem_insertionSort r).1 hy)) hx hpy]
      rw [ihx]
      simp [List.filter_cons, hx]

/-- In a list where `p` is monotone along the order (once true, true ever
after), `takeWhile (!p)` is exactly the `!p`-filter and `dropWhile (!p)` is
exactly the `p`-filter. -/
theorem takeWhile_dropWhile_of_mono {α : Type} (p : α → Bool) (l : List α)
    (hmono : l.Pairwise (fun a b => p a = true → p b = true)) :
    l.takeWhile (fun a => !p a) = l.filter (fun a => !p a)
    ∧ l.dropWhile (fun a => !p a) = l.filter p := by
  induction l with
  | nil => simp
  | cons x xs ih =>
    rcases List.pairwise_cons.1 hmono with ⟨hx, hxs⟩
    rcases ih hxs with ⟨iht, ihd⟩
    rcases hpx : p x with _ | _
    · constructor
      · rw [List.takeWhile_cons]
        simp only [hpx, Bool.not_false, if_true]
        rw [iht]
        simp [List.filter_cons, hpx]
      · rw [List.dropWhile_cons]
        simp only [hpx, Bool.not_false, if_true]
        rw [ihd]
        simp [List.filter_cons, hpx]
    · have hall : ∀ y ∈ xs, p y = true := fun y hy => hx y hy hpx
      constructor
      · rw [List.takeWhile_cons]
        simp only [hpx, Bool.not_true, if_false]
        have : List.filter (fun a => !p a) xs = [] :=
          List.filter_eq_nil_iff.2 fun y hy => by simp [hall y hy]
        simp [List.filter_cons, hpx, this]
      · rw [List.dropWhile_cons]
        simp only [hpx, Bool.not_true, if_false]
        have : List.filter p xs = xs := List.filter_eq_self.2 hall
        simp [List.filter_cons, hpx, this]

/-- Bit monotonicity under a shared high-bit prefix: among numbers agreeing
on all bits above depth `d`, numeric order sorts the `d`-th-bit-0 numbers
before the `d`-th-bit-1 numbers. -/
theorem testBit_mono_of_shared_prefix (a b d : Nat) (hd : d < 64) (hle : a ≤ b)
    (hpre : a / 2 ^ (64 - d) = b / 2 ^ (64 - d))
    (hbit : Nat.testBit a (63 - d) = true) : Nat.testBit b (63 - d) = true := by
  have he : 64 - d = 63 - d + 1 := by omega
  rw [he] at hpre
  have hdiva : a / 2 ^ (63 - d) / 2 = a / 2 ^ (63 - d + 1) := by
    rw [Nat.div_div_eq_div_mul, pow_succ]
  have hdivb : b / 2 ^ (63 - d) / 2 = b / 2 ^ (63 - d + 1) := by
    rw [Nat.div_div_eq_div_mul, pow_succ]
  rw [Nat.testBit_to_div_mod] at hbit ⊢
  have hba : a / 2 ^ (63 - d) % 2 = 1 := of_decide_eq_true hbit
  have hmono : a / 2 ^ (63 - d) ≤ b / 2 ^ (63 - d) := Nat.div_le_div_right hle
  have hda := Nat.div_add_mod (a / 2 ^ (63 - d)) 2
  have hdb := Nat.div_add_mod (b / 2 ^ (63 - d)) 2
  have hmb : b / 2 ^ (63 - d) % 2 < 2 := Nat.mod_lt _ (by decide)
  rw [hdiva, hpre] at hda
  rw [hdivb] at hdb
  apply decide_eq_true
  omega

/-- The canonical sort is ascending in `(KeyHash, Key)`. -/
theorem sortItems_sorted (h : K → Nat) (kvs : List (K × V)) :
    List.Sorted fullKeyLe (sortItems h kvs) :=
  List.sorted_insertionSort fullKeyLe (mkItems h kvs)

/-- Key hashes are monotone along the canonical sort. -/
theorem sortItems_hash_mono (h : K → Nat) (kvs : List (K × V)) :
    (sortItems h kvs).Pairwise (fun a b => a.key_hash ≤ b.key_hash) := by
  refine (sortItems_sorted h kvs).imp ?_
  intro a b hab
  rcases hab with hlt | ⟨heq, _⟩
  · exact le_of_lt hlt
  · exact le_of_eq heq

/-- Membership in the sorted items: exactly the hashed batch entries. -/
theorem mem_sortItems (h : K → Nat) (kvs : List (K × V)) (it : Item K V) :
    it ∈ sortItems h kvs ↔
      ∃ kv ∈ kvs,
        ({ key_hash := keyHashOf h kv.1, key := kv.1, value := kv.2 } : Item K V)
          = it := by
  unfold sortItems mkItems
  rw [List.mem_insertionSort, List.mem_map]

/-- Every sorted item's hash is the hash of its key. -/
theorem sortItems_key_hash (h : K → Nat) (kvs : List (K × V)) (it : Item K V)
    (hit : it ∈ sortItems h kvs) : it.key_hash = keyHashOf h it.key := by
  rcases (mem_sortItems h kvs it).1 hit with ⟨kv, _, rfl⟩
  rfl

/-- Stability on a fixed key: the canonical sort preserves the input order of
all entries of one key (they are mutually tied on the full key), and they are
exactly the hashed images of that key's batch entries. -/
theorem sortItems_filter_key (h : K → Nat) (kvs : List (K × V)) (k : K) :
    (sortItems h kvs).filter (fun it => decide (it.key = k))
      = (kvs.filter (fun kv => decide (kv.1 = k))).map
          (fun kv => { key_hash := keyHashOf h kv.1, key := kv.1, value := kv.2 }) := by
  unfold sortItems
  rw [filter_insertionSort_tied fullKeyLe _ (mkItems h kvs) ?_]
  · unfold mkItems
    rw [List.filter_map]
    rfl
  · intro x hx y hy hpx hpy
    have hxk : x.key = k := of_decide_eq_true hpx
    have hyk : y.key = k := of_decide_eq_true hpy
    rcases List.mem_map.1 hx with ⟨kvx, _, rfl⟩
    rcases List.mem_map.1 hy with ⟨kvy, _, rfl⟩
    simp only at hxk hyk
    right
    constructor
    · simp [hxk, hyk]
    · simp [hxk, hyk]

/-- C6: the canonical sort of the batch is ascending in `(KeyHash, Key)`;
entries of one key keep their input order (stability, later occurrence last)
and equal hashes are grouped contiguously; and on every slice whose hashes
agree on all bits above a depth `d`, `partition_point` on the negated bit
splits the slice exactly into the bit-0 items followed by the bit-1 items. -/
theorem C6_canonical_sort (h : K → Nat) (kvs : List (K × V)) :
    List.Sorted fullKeyLe (sortItems h kvs)
    ∧ (∀ k : K,
        (sortItems h kvs).filter (fun it => decide (it.key = k))
          = (kvs.filter (fun kv => decide (kv.1 = k))).map
              (fun kv => { key_hash := keyHashOf h kv.1, key := kv.1, value := kv.2 }))
    ∧ (∀ (l₁ l₂ l₃ : List (Item K V)) (a b : Item K V),
        sortItems h kvs = l₁ ++ a :: l₂ ++ b :: l₃ →
        a.key_hash = b.key_hash → ∀ c ∈ l₂, c.key_hash = a.key_hash)
    ∧ (∀ d : Nat, d < 64 → ∀ l₁ l₂ l₃ : List (Item K V),
        sortItems h kvs = l₁ ++ l₂ ++ l₃ →
        (∀ a ∈ l₂, ∀ b ∈ l₂,
          a.key_hash / 2 ^ (64 - d) = b.key_hash / 2 ^ (64 - d)) →
        l₂.take (partitionPoint (fun it => !(KeyHash.bit it.key_hash d)) l₂)
            = l₂.filter (fun it => !(KeyHash.bit it.key_hash d))
          ∧ l₂.drop (partitionPoint (fun it => !(KeyHash.bit it.key_hash d)) l₂)
            = l₂.filter (fun it => KeyHash.bit it.key_hash d)) := by
  refine ⟨sortItems_sorted h kvs, sortItems_filter_key h kvs, ?_, ?_⟩
  · intro l₁ l₂ l₃ a b heq hab c hc
    have hp := sortItems_hash_mono h kvs
    rw [heq] at hp
    rcases List.pairwise_append.1 hp with ⟨hpl, _, hcross⟩
    rcases List.pairwise_append.1 hpl with ⟨_, hp2, _⟩
    have hac : a.key_hash ≤ c.key_hash :=
      (List.pairwise_cons.1 hp2).1 c hc
    have hcb : c.key_hash ≤ b.key_hash :=
      hcross c (List.mem_append_right l₁ (List.mem_cons_of_mem a hc)) b
        (List.mem_cons_self b l₃)
    omega
  · intro d hd l₁ l₂ l₃ heq hpre
    have hs := sortItems_sorted h kvs
    rw [heq] at hs
    have hl2 : List.Pairwise fullKeyLe l₂ :=
      List.Pairwise.sublist
        ((List.sublist_append_right l₁ l₂).trans
          (List.sublist_append_left (l₁ ++ l₂) l₃)) hs
    have hmono : l₂.Pairwise
        (fun a b => KeyHash.bit a.key_hash d = true → KeyHash.bit b.key_hash d = true) := by
      refine hl2.imp_of_mem ?_
      intro a b ha hb hab hbit
      have hle : a.key_hash ≤ b.key_hash := by
        rcases hab with hlt | ⟨heq2, _⟩
        · exact le_of_lt hlt
        · exact le_of_eq heq2
      exact testBit_mono_of_shared_prefix _ _ d hd hle (hpre a ha b hb) hbit
    rcases takeWhile_dropWhile_of_mono (fun it => KeyHash.bit it.key_hash d) l₂ hmono
      with ⟨ht, hd2⟩
    have hpp : partitionPoint (fun it => !(KeyHash.bit it.key_hash d)) l₂
        = (l₂.takeWhile (fun it => !(KeyHash.bit it.key_hash d))).length := rfl
    have htake : l₂.take (partitionPoint (fun it => !(KeyHash.bit it.key_hash d)) l₂)
        = l₂.takeWhile (fun it => !(KeyHash.bit it.key_hash d)) := by
      rw [hpp, ← List.prefix_iff_eq_take.1 (List.takeWhile_prefix _)]
    constructor
    · rw [htake]
      exact ht
    · have hsplit := List.take_append_drop
        (partitionPoint (fun it => !(KeyHash.bit it.key_hash d)) l₂) l₂
      rw [htake] at hsplit
      have htds := List.takeWhile_append_dropWhile
        (fun it => !(KeyHash.bit it.key_hash d)) l₂
      have hdrop : l₂.dropWhile (fun it => !(KeyHash.bit it.key_hash d))
          = l₂.drop (partitionPoint (fun it => !(KeyHash.bit it.key_hash d)) l₂) :=
        List.append_cancel_left (htds.trans hsplit.symm)
      rw [← hdrop]
      exact hd2

/-- C6 witness: on the batch `[(2,10),(1,20),(2,30)]` with the identity
hasher, stability keeps the two key-2 entries in input order, and at depth 62
the partition point splits the sorted slice exactly between the bit-0 item
(hash 1) and the bit-1 items (hash 2). -/
theorem C6_canonical_sort_witness :
    ((sortItems (fun k => k) [((2 : Nat), (10 : Nat)), (1, 20), (2, 30)]).filter
        (fun it => decide (it.key = 2))
      = [{ key_hash := 2, key := 2, value := 10 },
         { key_hash := 2, key := 2, value := 30 }])
    ∧ (([{ key_hash := 1, key := 1, value := 20 },
         { key_hash := 2, key := 2, value := 10 },
         { key_hash := 2, key := 2, value := 30 }] : List (Item Nat Nat)).take
          (partitionPoint (fun it => !(KeyHash.bit it.key_hash 62))
            [{ key_hash := 1, key := 1, value := 20 },
             { key_hash := 2, key := 2, value := 10 },
             { key_hash := 2, key := 2, value := 30 }])
        = [{ key_hash := 1, key := 1, value := 20 }]) := by
  constructor
  · rw [(C6_canonical_sort (fun k => k) [((2 : Nat), (10 : Nat)), (1, 20), (2, 30)]).2.1 2]
    decide
  · have h4 := (C6_canonical_sort (fun k => k)
      [((2 : Nat), (10 : Nat)), (1, 20), (2, 30)]).2.2.2 62 (by decide)
      []
      [{ key_hash := 1, key := 1, value := 20 },
       { key_hash := 2, key := 2, value := 10 },
       { key_hash := 2, key := 2, value := 30 }]
      [] (by decide) (by decide)
    rw [h4.1]
    decide

/-- Everything in `btInsert k c m` is the new pair or an old entry. -/
theorem mem_btInsert_weak {α : Type} (k : K) (c : α) (m : List (K × α))
    (x : K × α) (hx : x ∈ btInsert k c m) : x = (k, c) ∨ x ∈ m := by
  induction m with
  | nil => simpa [btInsert] using hx
  | cons p rest ih =>
    simp only [btInsert] at hx
    by_cases h1 : k < p.1
    · rw [if_pos h1] at hx
      rcases List.mem_cons.1 hx with rfl | hx
      · exact Or.inl rfl
      · exact Or.inr hx
    · rw [if_neg h1] at hx
      by_cases h2 : k = p.1
      · rw [if_pos h2] at hx
        rcases List.mem_cons.1 hx with rfl | hx
        · exact Or.inl rfl
        · exact Or.inr (List.mem_cons_of_mem p hx)
      · rw [if_neg h2] at hx
        rcases List.mem_cons.1 hx with rfl | hx
        · exact Or.inr (List.mem_cons_self _ _)
        · rcases ih hx with h | h
          · exact Or.inl h
          · exact Or.inr (List.mem_cons_of_mem p h)

/-- `btInsert` preserves strict sortedness by key. -/
theorem btInsert_pairwise {α : Type} (k : K) (c : α) (m : List (K × α))
    (hm : m.Pairwise (fun a b => a.1 < b.1)) :
    (btInsert k c m).Pairwise (fun a b => a.1 < b.1) := by
  induction m with
  | nil => simp [btInsert]
  | cons p rest ih =>
    rcases List.pairwise_cons.1 hm with ⟨hp, hrest⟩
    simp only [btInsert]
    by_cases h1 : k < p.1
    · rw [if_pos h1]
      refine List.pairwise_cons.2 ⟨?_, hm⟩
      intro b hb
      rcases List.mem_cons.1 hb with rfl | hb
      · exact h1
      · exact h1.trans (hp b hb)
    · rw [if_neg h1]
      by_cases h2 : k = p.1
      · rw [if_pos h2]
        refine List.pairwise_cons.2 ⟨?_, hrest⟩
        intro b hb
        rw [h2]
        exact hp b hb
      · rw [if_neg h2]
        refine List.pairwise_cons.2 ⟨?_, ih hrest⟩
        intro b hb
        rcases mem_btInsert_weak k c rest b hb with rfl | hb2
        · rcases lt_trichotomy p.1 k with hlt | heq | hlt
          · exact hlt
          · exact absurd heq.symm h2
          · exact absurd hlt (by simpa using h1)
        · exact hp b hb2

/-- Keys after `btInsert`: the inserted key plus the old keys. -/
theorem btInsert_keys_mem {α : Type} (k : K) (c : α) (m : List (K × α))
    (x : K) :
    x ∈ (btInsert k c m).map Prod.fst ↔ x = k ∨ x ∈ m.map Prod.fst := by
  induction m with
  | nil => simp [btInsert]
  | cons p rest ih =>
    simp only [btInsert]
    by_cases h1 : k < p.1
    · rw [if_pos h1]
      simp [List.mem_cons]
    · rw [if_neg h1]
      by_cases h2 : k = p.1
      · rw [if_pos h2]
        subst h2
        simp [List.mem_cons]
      · rw [if_neg h2]
        simp only [List.map_cons, List.mem_cons]
        rw [ih]
        tauto

/-- The `btFromList` fold preserves strict sortedness of the accumulator. -/
theorem btFromList_fold_pairwise {α : Type} (l : List (K × α))
    (m : List (K × α)) (hm : m.Pairwise (fun a b => a.1 < b.1)) :
    (l.foldl (fun m kc => btInsert kc.1 kc.2 m) m).Pairwise
      (fun a b => a.1 < b.1) := by
  induction l generalizing m with
  | nil => simpa using hm
  | cons p rest ih =>
    simp only [List.foldl_cons]
    exact ih _ (btInsert_pairwise p.1 p.2 m hm)

/-- `btFromList` is strictly sorted by key. -/
theorem btFromList_pairwise {α : Type} (l : List (K × α)) :
    (btFromList l).Pairwise (fun a b => a.1 < b.1) :=
  btFromList_fold_pairwise l [] (by simp)

/-- Keys accumulated by the `btFromList` fold. -/
theorem btFromList_fold_keys {α : Type} (l : List (K × α))
    (m : List (K × α)) (x : K) :
    x ∈ (l.foldl (fun m kc => btInsert kc.1 kc.2 m) m).map Prod.fst
      ↔ x ∈ m.map Prod.fst ∨ x ∈ l.map Prod.fst := by
  induction l generalizing m with
  | nil => simp
  | cons p rest ih =>
    simp only [List.foldl_cons, List.map_cons, List.mem_cons]
    rw [ih, btInsert_keys_mem]
    tauto

/-- The keys of `btFromList l` are exactly the keys of `l`. -/
theorem btFromList_keys_mem {α : Type} (l : List (K × α)) (x : K) :
    x ∈ (btFromList l).map Prod.fst ↔ x ∈ l.map Prod.fst := by
  unfold btFromList
  rw [btFromList_fold_keys]
  simp

/-- The size of `btFromList l` is the number of distinct keys of `l`. -/
theorem btFromList_length {α : Type} (l : List (K × α)) :
    (btFromList l).length = (l.map Prod.fst).toFinset.card := by
  have hn : ((btFromList l).map Prod.fst).Nodup := by
    have h1 : ((btFromList l).map Prod.fst).Pairwise (fun a b => a < b) :=
      List.Pairwise.map Prod.fst (fun a b hab => hab) (btFromList_pairwise l)
    exact h1.imp fun hab => ne_of_lt hab
  calc (btFromList l).length
      = ((btFromList l).map Prod.fst).length := (List.length_map _ _).symm
    _ = ((btFromList l).map Prod.fst).toFinset.card :=
        (List.toFinset_card_of_nodup hn).symm
    _ = (l.map Prod.fst).toFinset.card := by
        congr 1
        ext x
        simp only [List.mem_toFinset]
        exact btFromList_keys_mem l x

/-- `btGet` after `btInsert`. -/
theorem btGet_btInsert {α : Type} (k k2 : K) (c : α) (m : List (K × α)) :
    btGet (btInsert k c m) k2 = if k2 = k then some c else btGet m k2 := by
  induction m with
  | nil =>
    by_cases h : k2 = k
    · simp [btInsert, btGet, h]
    · have h2 : ¬(k = k2) := fun hh => h hh.symm
      simp [btInsert, btGet, h, h2]
  | cons p rest ih =>
    simp only [btInsert]
    by_cases h1 : k < p.1
    · rw [if_pos h1]
      by_cases h : k2 = k
      · simp [btGet, h]
      · have h2 : ¬(k = k2) := fun hh => h hh.symm
        simp [btGet, h, h2]
    · rw [if_neg h1]
      by_cases h2 : k = p.1
      · rw [if_pos h2]
        by_cases h : k2 = k
        · simp [btGet, h]
        · have h3 : ¬(k = k2) := fun hh => h hh.symm
          have h4 : ¬(p.1 = k2) := fun hh => h (h2.symm ▸ hh).symm
          simp [btGet, h, h3, h4]
      · rw [if_neg h2]
        by_cases h : p.1 = k2
        · have h3 : k2 ≠ k := fun hh => h2 ((hh ▸ h).symm)
          simp [btGet, h, h3]
        · have hp2 : decide (p.1 = k2) = false := decide_eq_false h
          simp only [btGet, List.find?_cons, hp2]
          simpa [btGet] using ih

/-- `btGet` after `btFromList`: later pairs shadow earlier pairs of the same
key, so the lookup returns the value of the key's last occurrence. -/
theorem btGet_btFromList {α : Type} (l : List (K × α)) (k : K) :
    btGet (btFromList l) k
      = ((l.filter fun kc => decide (kc.1 = k)).getLast?).map Prod.snd := by
  induction l using List.reverseRecOn with
  | nil => simp [btFromList, btGet]
  | append_singleton l p ih =>
    have hfold : btFromList (l ++ [p]) = btInsert p.1 p.2 (btFromList l) := by
      simp [btFromList, List.foldl_append]
    rw [hfold, btGet_btInsert, List.filter_append]
    by_cases h : k = p.1
    · rw [if_pos h]
      have hone : List.filter (fun kc => decide (kc.1 = k)) [p] = [p] := by
        simp [h.symm]
      rw [hone, List.getLast?_concat]
      rfl
    · rw [if_neg h]
      have hzero : List.filter (fun kc => decide (kc.1 = k)) [p] = [] := by
        simp
        exact fun hh => h hh.symm
      rw [hzero, List.append_nil, ih]

/-- Dropping a conjunct implied by the other: filtering on `p && q` equals
filtering on `p` when `p` implies `q` on the list. -/
theorem filter_and_of_imp_right {α : Type} (p q : α → Bool) (l : List α)
    (himp : ∀ a ∈ l, p a = true → q a = true) :
    l.filter (fun a => p a && q a) = l.filter p := by
  induction l with
  | nil => rfl
  | cons x xs ih =>
    have ihx := ih fun a ha hpa => himp a (List.mem_cons_of_mem x ha) hpa
    simp only [List.filter_cons]
    rcases hp : p x with _ | _
    · simp only [Bool.false_and, Bool.false_eq_true, if_false]
      exact ihx
    · have hq := himp x (List.mem_cons_self x xs) hp
      simp only [hq, Bool.true_and, if_true]
      rw [ihx]

/-- The entry for key `k` in the content produced by `to_leaf_content` is the
value of the last item with that key in the slice. -/
theorem to_leaf_content_valueOf (items : List (Item K V)) (layer : Nat)
    (c : LeafContent K V) (h : to_leaf_content items layer = Except.ok c)
    (k : K) :
    c.valueOf k
      = ((items.filter fun it => decide (it.key = k)).getLast?).map
          (fun it => it.value) := by
  match items with
  | [] => simp [to_leaf_content] at h
  | [it] =>
    simp only [to_leaf_content, Except.ok.injEq] at h
    subst h
    by_cases hk : it.key = k
    · simp [LeafContent.valueOf, hk]
    · simp [LeafContent.valueOf, List.filter_cons, hk]
  | a :: b :: rest =>
    have hmain : c.valueOf k
        = (btGet (btFromList ((a :: b :: rest).map
            fun it => (it.key, CollisionCell.mk it.value layer))) k).map
            (fun cell => cell.value) := by
      simp only [to_leaf_content] at h
      split at h
      · next hlen =>
        split at h
        · next k0 cell tl heq =>
          simp only [Except.ok.injEq] at h
          subst h
          rw [heq] at hlen ⊢
          have htl : tl = [] := by
            simp only [List.length_cons] at hlen
            exact List.length_eq_zero.1 (by omega)
          subst htl
          by_cases hk : k0 = k
          · simp [LeafContent.valueOf, btGet, hk]
          · simp [LeafContent.valueOf, btGet, hk]
        · simp at h
      · simp only [Except.ok.injEq] at h
        subst h
        rfl
    rw [hmain, btGet_btFromList, List.filter_map, List.getLast?_map]
    cases hx : ((a :: b :: rest).filter fun it => decide (it.key = k)).getLast?
      with
    | none =>
      have hx2 : (List.filter
          ((fun kc : K × CollisionCell V => decide (kc.1 = k)) ∘
            fun it : Item K V => (it.key, CollisionCell.mk it.value layer))
          (a :: b :: rest)).getLast? = none := hx
      rw [hx2]
      rfl
    | some it =>
      have hx2 : (List.filter
          ((fun kc : K × CollisionCell V => decide (kc.1 = k)) ∘
            fun it : Item K V => (it.key, CollisionCell.mk it.value layer))
          (a :: b :: rest)).getLast? = some it := hx
      rw [hx2]
      rfl

/-- The content produced by `to_leaf_content` is a Collision exactly when the
slice carries at least two distinct keys. -/
theorem to_leaf_content_collision_iff (items : List (Item K V)) (layer : Nat)
    (c : LeafContent K V) (h : to_leaf_content items layer = Except.ok c) :
    (∃ m, c = LeafContent.collision m)
      ↔ 2 ≤ ((items.map fun it => it.key).toFinset.card) := by
  match items with
  | [] => simp [to_leaf_content] at h
  | [it] =>
    simp only [to_leaf_content, Except.ok.injEq] at h
    subst h
    constructor
    · rintro ⟨m, hm⟩
      cases hm
    · intro h2
      simp at h2
  | a :: b :: rest =>
    have hcard : ((a :: b :: rest).map fun it => it.key).toFinset.card
        = (btFromList ((a :: b :: rest).map
            fun it => (it.key, CollisionCell.mk it.value layer))).length := by
      rw [btFromList_length, List.map_map]
      rfl
    simp only [to_leaf_content] at h
    split at h
    · next hlen =>
      split at h
      · next k0 cell tl heq =>
        simp only [Except.ok.injEq] at h
        subst h
        constructor
        · rintro ⟨m, hm⟩
          cases hm
        · intro h2
          rw [hcard, hlen] at h2
          omega
      · simp at h
    · next hlen =>
      simp only [Except.ok.injEq] at h
      subst h
      constructor
      · intro _
        have hpos : 0 < ((a :: b :: rest).map fun it => it.key).toFinset.card :=
          Finset.card_pos.2 ⟨a.key, by simp⟩
        rw [hcard] at hpos ⊢
        omega
      · intro _
        exact ⟨_, rfl⟩

/-- C5: for the leaf slice of one KeyHash (the contiguous run of sorted
items with that hash, i.e. the hash-filter of the canonical sort), the
materialized content keeps, for every key of that hash, exactly the value of
the key's last occurrence in batch input order; and the content is a
Collision precisely when at least two distinct keys share the hash. -/
theorem C5_batch_leaf (h : K → Nat) (kvs : List (K × V)) (layer : Nat)
    (kh : Nat) (k : K) (c : LeafContent K V) (hk : keyHashOf h k = kh)
    (hok : to_leaf_content
        ((sortItems h kvs).filter fun it => decide (it.key_hash = kh)) layer
      = Except.ok c) :
    c.valueOf k
        = ((kvs.filter fun kv => decide (kv.1 = k)).getLast?).map
            (fun kv => kv.2)
    ∧ ((∃ m, c = LeafContent.collision m)
        ↔ 2 ≤ ((((sortItems h kvs).filter
            fun it => decide (it.key_hash = kh)).map
              fun it => it.key).toFinset.card)) := by
  refine ⟨?_, to_leaf_content_collision_iff _ _ _ hok⟩
  rw [to_leaf_content_valueOf _ _ _ hok k]
  rw [List.filter_filter]
  have himp : ∀ it ∈ sortItems h kvs,
      decide (it.key = k) = true → decide (it.key_hash = kh) = true := by
    intro it hit hpk
    have hkey : it.key = k := of_decide_eq_true hpk
    have hhash := sortItems_key_hash h kvs it hit
    rw [hkey, hk] at hhash
    exact decide_eq_true hhash
  rw [filter_and_of_imp_right _ _ _ himp]
  rw [sortItems_filter_key h kvs k, List.getLast?_map]
  cases hx : (kvs.filter fun kv => decide (kv.1 = k)).getLast? <;> simp [hx]

/-- C5 witness: batch `[(0,1),(4,2),(0,3)]` with the identity hasher; the
leaf slice of hash 0 holds the duplicate key 0, whose materialized value is
its last occurrence 3. -/
theorem C5_batch_leaf_witness :
    (LeafContent.uniqueLatest (0 : Nat) (3 : Nat)).valueOf 0
      = (([((0 : Nat), (1 : Nat)), (4, 2), (0, 3)].filter
          fun kv => decide (kv.1 = 0)).getLast?).map (fun kv => kv.2) :=
  (C5_batch_leaf (fun k => k) [((0 : Nat), (1 : Nat)), (4, 2), (0, 3)] 1 0 0
    (LeafContent.uniqueLatest 0 3) (by decide) (by rfl)).1

end LMap
